import Mathlib

set_option maxRecDepth 8000

/-!
Shallow embedding of the content-addressed file utilities of this
repository: `scripts/check-duplicates.py` (duplicate scanner) and
`scripts/random-rename.py` (rename normalizer).

File contents are byte lists.  The cryptographic digest function
(`hashlib.sha256(...).hexdigest()`) is kept as an explicit parameter `H` of
every operation: the scripts only use its output as an opaque hex string,
and the specification assumes collision-resistance, which appears below as
an explicit hypothesis where a claim needs it.  An `os.walk` traversal is
modelled by the sequence of files (respectively of `(dirpath, filenames)`
snapshots) it yields; the spec leaves the traversal order unconstrained.
Python exceptions (`OSError` on open/read/rename) are modelled with
`Except`.
-/

/-- Byte content of a file, as returned by `file.read()`: one `Nat` per byte. -/
abbrev Content := List Nat

namespace CheckDuplicates

/-- A file yielded by the walk in `find_duplicates`: its joined path and the
byte content that opening it would produce; `none` models a file whose
`open`/`read` raises an `OSError` (permissions, deleted mid-walk, ...). -/
structure FileEntry where
  path : String
  content : Option Content
deriving DecidableEq

/-- Model of `hash_file` of `check-duplicates.py`: open the file, read the
whole content, feed it to the hasher, return the hex digest.  `H` stands for
`hashlib.sha256(...).hexdigest()`; an unreadable file raises, modelled as
`Except.error`. -/
def hash_file (H : Content → String) (f : FileEntry) : Except String String :=
  match f.content with
  | some buf => Except.ok (H buf)
  | none => Except.error ("IOError: cannot read " ++ f.path)

/-- Lookup in the Python dict `file_hashes`, modelled as an association list
in insertion order (keys are only ever inserted when absent, so keys are
unique and first-match lookup is dict lookup). -/
def lookup : List (String × String) → String → Option String
  | [], _ => none
  | (k, v) :: rest, d => if k = d then some v else lookup rest d

/-- The loop state of `find_duplicates`: the dict `file_hashes` (digest to
first-seen path) and the accumulated list `duplicates`. -/
structure ScanState where
  file_hashes : List (String × String)
  duplicates : List (String × String)
deriving DecidableEq

/-- Loop body of `find_duplicates` for one walked file: hash it; if the
digest is already a key of `file_hashes`, append `(filepath, original)` to
`duplicates`; otherwise record `file_hash -> filepath` in the dict. -/
def scanStep (H : Content → String) (st : ScanState) (f : FileEntry) : Except String ScanState :=
  match hash_file H f with
  | Except.error e => Except.error e
  | Except.ok file_hash =>
    match lookup st.file_hashes file_hash with
    | some original => Except.ok ⟨st.file_hashes, st.duplicates ++ [(f.path, original)]⟩
    | none => Except.ok ⟨st.file_hashes ++ [(file_hash, f.path)], st.duplicates⟩

/-- The walk loop of `find_duplicates` over the files in traversal order; an
exception from `hash_file` propagates and aborts the loop. -/
def scanFiles (H : Content → String) : ScanState → List FileEntry → Except String ScanState
  | st, [] => Except.ok st
  | st, f :: fs =>
    match scanStep H st f with
    | Except.error e => Except.error e
    | Except.ok st2 => scanFiles H st2 fs

/-- Model of `find_duplicates`: starting from an empty dict and an empty
duplicates list, process every walked file and return the duplicates list. -/
def find_duplicates (H : Content → String) (files : List FileEntry) :
    Except String (List (String × String)) :=
  match scanFiles H ⟨[], []⟩ files with
  | Except.error e => Except.error e
  | Except.ok st => Except.ok st.duplicates

/-- Model of `print_duplicates`: the lines written to standard output.
Python's `if duplicates:` is list nonemptiness. -/
def print_duplicates (duplicates : List (String × String)) : List String :=
  if duplicates = [] then ["No duplicate files found."]
  else duplicates.map (fun dup => dup.1 ++ " is a duplicate of " ++ dup.2)

/-- A concrete digest function used to instantiate `H` in closed
evaluations: injective on the two byte strings it separates. -/
def demoHash (c : Content) : String :=
  if c = [1] then "h1" else "h2"

end CheckDuplicates

namespace RandomRename

/-- Character strings manipulated character-wise (filenames, digests). -/
abbrev Name := List Char

/-- A path as produced by `os.path.join(dirpath, filename)`: the directory
part and the filename part. -/
abbrev FPath := Name × Name

/-- The file system visible to the renamer: entries mapping a path to byte
content (paths of live files are unique). -/
abbrev FS := List (FPath × Content)

/-- Content stored at a path, `none` if no such file. -/
def fsLookup : FS → FPath → Option Content
  | [], _ => none
  | e :: fs, p => if e.1 = p then some e.2 else fsLookup fs p

/-- Remove the entry at a path. -/
def fsErase (fs : FS) (p : FPath) : FS :=
  fs.filter (fun e => e.1 != p)

/-- Model of `os.rename(src, dst)`: fails if `src` does not exist; otherwise
moves the content of `src` to `dst`, silently replacing any file already at
`dst` (POSIX rename semantics, the behavior the script relies on). -/
def osRename (fs : FS) (src dst : FPath) : Except String FS :=
  match fsLookup fs src with
  | none => Except.error "OSError: no such file"
  | some c => Except.ok (fsErase (fsErase fs src) dst ++ [(dst, c)])

/-- Python slice `s[:n]` for an `int` slice bound `n`: for `0 ≤ n` the first
`n` characters (clamped to the length), for negative `n` all but the last
`-n` characters (clamped to empty). -/
def pySlice (s : Name) (n : Int) : Name :=
  if 0 ≤ n then s.take n.toNat else s.take ((s.length : Int) + n).toNat

/-- Index of the last `'.'` in a character list (`str.rfind('.')`),
`none` when there is no dot. -/
def rfindDot : Name → Option Nat
  | [] => none
  | c :: cs =>
    match rfindDot cs with
    | some i => some (i + 1)
    | none => if c = '.' then some 0 else none

/-- Model of `os.path.splitext` on a bare filename (CPython
`genericpath._splitext` with no path separator in the string): split at the
last dot, except that a name whose characters before its last dot are all
dots (e.g. `.bashrc`, `..x`) has no extension. -/
def splitext (p : Name) : Name × Name :=
  match rfindDot p with
  | none => (p, [])
  | some i =>
    if (p.take i).any (fun c => c != '.') then (p.take i, p.drop i) else (p, [])

/-- Model of `hash_file` of `random-rename.py`: read the whole file, hash
it, return `hexdigest()[:char_count]` — the slice applied to the digest of
the complete content. -/
def hash_file (H : Content → Name) (fs : FS) (filepath : FPath) (char_count : Int) :
    Except String Name :=
  match fsLookup fs filepath with
  | none => Except.error "IOError: cannot read file"
  | some buf => Except.ok (pySlice (H buf) char_count)

/-- The filename that `rename_files` constructs for a file with the given
original filename and content: truncated digest followed by
`os.path.splitext(filename)[1]`. -/
def new_filename (H : Content → Name) (char_count : Int) (filename : Name) (buf : Content) :
    Name :=
  pySlice (H buf) char_count ++ (splitext filename).2

/-- Loop body of `rename_files` for one file of one directory: hash the
file, build `new_filepath` in the same `dirpath`, and `os.rename` onto it. -/
def renameStep (H : Content → Name) (char_count : Int) (dirpath : Name) (fs : FS)
    (filename : Name) : Except String FS :=
  match hash_file H fs (dirpath, filename) char_count with
  | Except.error e => Except.error e
  | Except.ok file_hash =>
    osRename fs (dirpath, filename) (dirpath, file_hash ++ (splitext filename).2)

/-- Inner loop of `rename_files` over one directory's filename snapshot (the
`filenames` list yielded by `os.walk` before any rename in that directory). -/
def renameDir (H : Content → Name) (char_count : Int) (dirpath : Name) :
    FS → List Name → Except String FS
  | fs, [] => Except.ok fs
  | fs, filename :: rest =>
    match renameStep H char_count dirpath fs filename with
    | Except.error e => Except.error e
    | Except.ok fs2 => renameDir H char_count dirpath fs2 rest

/-- Model of `rename_files`: process each `(dirpath, filenames)` snapshot
yielded by `os.walk` in order; an exception aborts the run. -/
def rename_files (H : Content → Name) (char_count : Int) :
    FS → List (Name × List Name) → Except String FS
  | fs, [] => Except.ok fs
  | fs, d :: rest =>
    match renameDir H char_count d.1 fs d.2 with
    | Except.error e => Except.error e
    | Except.ok fs2 => rename_files H char_count fs2 rest

/-- Model of the `--char_count` argument handling in `get_args`: argparse
with `type=int` and `default=10`; `none` models an absent flag.  The script
performs no further validation of the value. -/
def parse_char_count (arg : Option Int) : Except String Int :=
  Except.ok (arg.getD 10)

/-- Modelled from the spec's words, for comparison with `splitext`: the
extension as "the original filename's last dot-delimited suffix, or empty
if none" — the suffix from the last dot, empty when there is no dot. -/
def specExt (p : Name) : Name :=
  match rfindDot p with
  | none => []
  | some i => p.drop i

/-- A concrete 64-character hex digest used to instantiate `H` in closed
evaluations that need the SHA-256 hexdigest length. -/
def hex64 : Name :=
  ("0123456789abcdef0123456789abcdef0123456789abcdef0123456789abcdef").toList

/-- A concrete digest function of constant value `hex64`. -/
def demoHash64 (_ : Content) : Name := hex64

/-- A concrete digest function whose outputs on `[1]` and `[2]` differ but
agree on their first four characters. -/
def collideHash (c : Content) : Name :=
  if c = [1] then ("aaaa1111").toList else ("aaaa2222").toList

end RandomRename

namespace CheckDuplicates

/-- Dict lookup is unaffected by entries appended later. -/
theorem lookup_append_of_some {m : List (String × String)} {d p : String}
    (l : List (String × String)) (h : lookup m d = some p) :
    lookup (m ++ l) d = some p := by
  induction m with
  | nil => simp [lookup] at h
  | cons e rest ih =>
    obtain ⟨k, v⟩ := e
    by_cases hk : k = d
    · simpa [lookup, hk] using h
    · simp only [List.cons_append, lookup, hk, if_false] at h ⊢
      exact ih h

/-- Appending a fresh key at the end of the dict makes it found. -/
theorem lookup_append_self {m : List (String × String)} {d : String} (q : String)
    (h : lookup m d = none) : lookup (m ++ [(d, q)]) d = some q := by
  induction m with
  | nil => simp [lookup]
  | cons e rest ih =>
    obtain ⟨k, v⟩ := e
    by_cases hk : k = d
    · simp [lookup, hk] at h
    · simp only [List.cons_append, lookup, hk, if_false] at h ⊢
      exact ih h

/-- A successful lookup names an entry of the dict. -/
theorem lookup_mem {m : List (String × String)} {d p : String} (h : lookup m d = some p) :
    (d, p) ∈ m := by
  induction m with
  | nil => simp [lookup] at h
  | cons e rest ih =>
    obtain ⟨k, v⟩ := e
    by_cases hk : k = d
    · subst hk
      have hv : v = p := by simpa [lookup] using h
      subst hv
      exact List.mem_cons_self _ _
    · simp only [lookup, hk, if_false] at h
      exact List.mem_cons_of_mem _ (ih h)

/-- A step that succeeds was applied to a readable file. -/
theorem scanStep_ok_content {H : Content → String} {st st2 : ScanState} {f : FileEntry}
    (h : scanStep H st f = Except.ok st2) : ∃ c, f.content = some c := by
  cases hc : f.content with
  | none => simp [scanStep, hash_file, hc] at h
  | some c => exact ⟨c, rfl⟩

/-- Step on a file whose digest is already indexed: a duplicate record is
appended and the index is left untouched. -/
theorem scanStep_dup {H : Content → String} {st : ScanState} {f : FileEntry} {c : Content}
    {q : String} (hc : f.content = some c) (hq : lookup st.file_hashes (H c) = some q) :
    scanStep H st f = Except.ok ⟨st.file_hashes, st.duplicates ++ [(f.path, q)]⟩ := by
  simp [scanStep, hash_file, hc, hq]

/-- Step on a file whose digest is fresh: the digest is recorded and no
record is emitted. -/
theorem scanStep_new {H : Content → String} {st : ScanState} {f : FileEntry} {c : Content}
    (hc : f.content = some c) (hq : lookup st.file_hashes (H c) = none) :
    scanStep H st f = Except.ok ⟨st.file_hashes ++ [(H c, f.path)], st.duplicates⟩ := by
  simp [scanStep, hash_file, hc, hq]

/-- One step never loses an index entry. -/
theorem scanStep_preserves_lookup {H : Content → String} {st st2 : ScanState} {f : FileEntry}
    {d p : String} (h : scanStep H st f = Except.ok st2)
    (hd : lookup st.file_hashes d = some p) : lookup st2.file_hashes d = some p := by
  cases hc : f.content with
  | none => simp [scanStep, hash_file, hc] at h
  | some c =>
    cases hq : lookup st.file_hashes (H c) with
    | some orig =>
      rw [scanStep_dup hc hq] at h
      simp only [Except.ok.injEq] at h
      subst h
      exact hd
    | none =>
      rw [scanStep_new hc hq] at h
      simp only [Except.ok.injEq] at h
      subst h
      exact lookup_append_of_some _ hd

/-- The whole loop never loses an index entry. -/
theorem scanFiles_preserves_lookup {H : Content → String} {files : List FileEntry} :
    ∀ {st st' : ScanState} {d p : String}, scanFiles H st files = Except.ok st' →
      lookup st.file_hashes d = some p → lookup st'.file_hashes d = some p := by
  induction files with
  | nil =>
    intro st st' d p h hd
    simp only [scanFiles, Except.ok.injEq] at h
    subst h
    exact hd
  | cons f fs ih =>
    intro st st' d p h hd
    cases hs : scanStep H st f with
    | error e => simp [scanFiles, hs] at h
    | ok st2 =>
      simp only [scanFiles, hs] at h
      exact ih h (scanStep_preserves_lookup hs hd)

/-- A successful run read every file it walked. -/
theorem scanFiles_ok_readable {H : Content → String} {files : List FileEntry} :
    ∀ {st st' : ScanState}, scanFiles H st files = Except.ok st' →
      ∀ f ∈ files, ∃ c, f.content = some c := by
  induction files with
  | nil => intro st st' _ f hf; simp at hf
  | cons g fs ih =>
    intro st st' h f hf
    cases hs : scanStep H st g with
    | error e => simp [scanFiles, hs] at h
    | ok st2 =>
      simp only [scanFiles, hs] at h
      rcases List.mem_cons.mp hf with rfl | hf2
      · exact scanStep_ok_content hs
      · exact ih h f hf2

/-- The loop over a concatenation runs the two halves in sequence. -/
theorem scanFiles_append {H : Content → String} (xs ys : List FileEntry) :
    ∀ st : ScanState, scanFiles H st (xs ++ ys) =
      (match scanFiles H st xs with
       | Except.error e => Except.error e
       | Except.ok st2 => scanFiles H st2 ys) := by
  induction xs with
  | nil => intro st; simp [scanFiles]
  | cons f fs ih =>
    intro st
    cases hs : scanStep H st f with
    | error e => simp [scanFiles, hs]
    | ok st2 => simp [scanFiles, hs, ih]

/-- C1: during any run of `find_duplicates`, a digest inserted into
`file_hashes` is never overwritten afterwards — whatever path a digest maps
to at any point of the run, the final index still maps it there — and
re-encountering an already-indexed digest appends a DuplicateRecord naming
the indexed first-seen path while leaving the index unchanged. -/
theorem index_insertion_immutable (H : Content → String) (files : List FileEntry)
    (st st' : ScanState) (d p q : String) (f : FileEntry) (c : Content)
    (hrun : scanFiles H st files = Except.ok st')
    (hd : lookup st.file_hashes d = some p)
    (hc : f.content = some c)
    (hq : lookup st.file_hashes (H c) = some q) :
    lookup st'.file_hashes d = some p ∧
      scanStep H st f = Except.ok ⟨st.file_hashes, st.duplicates ++ [(f.path, q)]⟩ :=
  ⟨scanFiles_preserves_lookup hrun hd, scanStep_dup hc hq⟩

/-- Witness for C1: a concrete run over one file whose digest is already
indexed keeps the index entry and emits one record. -/
theorem index_insertion_immutable_witness :
    scanFiles demoHash ⟨[("h1", "p0")], []⟩ [⟨"p1", some [1]⟩] =
      Except.ok ⟨[("h1", "p0")], [("p1", "p0")]⟩ ∧
    lookup [("h1", "p0")] "h1" = some "p0" ∧
    (⟨"p1", some [1]⟩ : FileEntry).content = some [1] ∧
    lookup [("h1", "p0")] (demoHash [1]) = some "p0" ∧
    (lookup (ScanState.mk [("h1", "p0")] [("p1", "p0")]).file_hashes "h1" = some "p0" ∧
      scanStep demoHash ⟨[("h1", "p0")], []⟩ ⟨"p1", some [1]⟩ =
        Except.ok ⟨[("h1", "p0")], [] ++ [("p1", "p0")]⟩) := by
  refine ⟨rfl, rfl, rfl, rfl, ?_⟩
  exact index_insertion_immutable demoHash [⟨"p1", some [1]⟩] ⟨[("h1", "p0")], []⟩
    ⟨[("h1", "p0")], [("p1", "p0")]⟩ "h1" "p0" "p0" ⟨"p1", some [1]⟩ [1] rfl rfl rfl rfl

/-- C7: an unreadable file makes `hash_file` fail with an I/O error, and a
scan whose walk contains any unreadable file does not return a result at
all — the error propagates and aborts `find_duplicates` instead of the file
being skipped or an empty result being returned. -/
theorem unreadable_aborts_scan (H : Content → String) (files : List FileEntry)
    (f : FileEntry) (hmem : f ∈ files) (hunread : f.content = none) :
    hash_file H f = Except.error ("IOError: cannot read " ++ f.path) ∧
    (find_duplicates H files).isOk = false := by
  refine ⟨by simp [hash_file, hunread], ?_⟩
  cases hsc : scanFiles H ⟨[], []⟩ files with
  | error e => simp [find_duplicates, hsc, Except.isOk, Except.toBool]
  | ok st =>
    exfalso
    obtain ⟨c, hc⟩ := scanFiles_ok_readable hsc f hmem
    rw [hunread] at hc
    exact Option.noConfusion hc

/-- Witness for C7: a two-file walk whose second file is unreadable. -/
theorem unreadable_aborts_scan_witness :
    (⟨"p2", none⟩ : FileEntry) ∈ [(⟨"p1", some [1]⟩ : FileEntry), ⟨"p2", none⟩] ∧
    (⟨"p2", none⟩ : FileEntry).content = none ∧
    hash_file demoHash ⟨"p2", none⟩ = Except.error ("IOError: cannot read " ++ "p2") ∧
    (find_duplicates demoHash [⟨"p1", some [1]⟩, ⟨"p2", none⟩]).isOk = false := by
  refine ⟨by decide, rfl, ?_, ?_⟩
  · exact (unreadable_aborts_scan demoHash [⟨"p1", some [1]⟩, ⟨"p2", none⟩]
      ⟨"p2", none⟩ (by decide) rfl).1
  · exact (unreadable_aborts_scan demoHash [⟨"p1", some [1]⟩, ⟨"p2", none⟩]
      ⟨"p2", none⟩ (by decide) rfl).2

/-- C9: the scanner's report is one line per DuplicateRecord, of the exact
form "duplicate is a duplicate of original", and the single line
"No duplicate files found." when the duplicates list is empty. -/
theorem print_duplicates_format (duplicates : List (String × String)) :
    (duplicates ≠ [] →
      (print_duplicates duplicates).length = duplicates.length ∧
      ∀ (i : Nat) (h1 : i < (print_duplicates duplicates).length)
        (h2 : i < duplicates.length),
        (print_duplicates duplicates).get ⟨i, h1⟩ =
          (duplicates.get ⟨i, h2⟩).1 ++ " is a duplicate of " ++ (duplicates.get ⟨i, h2⟩).2) ∧
    (duplicates = [] → print_duplicates duplicates = ["No duplicate files found."]) := by
  constructor
  · intro hne
    constructor
    · simp [print_duplicates, hne]
    · intro i h1 h2
      simp [print_duplicates, hne, List.get_eq_getElem, List.getElem_map]
  · intro he
    simp [print_duplicates, he]

/-- Witness for C9: one record gives exactly its formatted line, an empty
list gives the no-duplicates line. -/
theorem print_duplicates_format_witness :
    (print_duplicates [("b", "a")]).length = [(("b" : String), ("a" : String))].length ∧
    print_duplicates [] = ["No duplicate files found."] :=
  ⟨((print_duplicates_format [("b", "a")]).1 (by decide)).1,
    (print_duplicates_format []).2 rfl⟩

end CheckDuplicates

namespace RandomRename

/-- A successful filesystem lookup names an entry. -/
theorem fsLookup_mem {fs : FS} {p : FPath} {c : Content} (h : fsLookup fs p = some c) :
    (p, c) ∈ fs := by
  induction fs with
  | nil => simp [fsLookup] at h
  | cons e rest ih =>
    by_cases he : e.1 = p
    · have hc : e.2 = c := by simpa [fsLookup, he] using h
      have : e = (p, c) := by
        cases e
        simp only at he hc
        simp [he, hc]
      rw [← this]
      exact List.mem_cons_self _ _
    · simp only [fsLookup, he, if_false] at h
      exact List.mem_cons_of_mem _ (ih h)

/-- Erasure keeps only entries of the original file system. -/
theorem mem_of_mem_fsErase {fs : FS} {p : FPath} {e : FPath × Content}
    (h : e ∈ fsErase fs p) : e ∈ fs :=
  List.mem_of_mem_filter h

/-- For a nonnegative slice bound, the Python slice is `List.take`. -/
theorem pySlice_nonneg {s : Name} {n : Int} (hn : 0 ≤ n) :
    pySlice s n = s.take n.toNat := by
  simp [pySlice, hn]

/-- A step that succeeds found the file it was to rename. -/
theorem renameStep_ok_src {H : Content → Name} {cc : Int} {dirpath filename : Name}
    {fs fs2 : FS} (h : renameStep H cc dirpath fs filename = Except.ok fs2) :
    ∃ buf, fsLookup fs (dirpath, filename) = some buf := by
  cases hl : fsLookup fs (dirpath, filename) with
  | none => simp [renameStep, hash_file, hl] at h
  | some buf => exact ⟨buf, rfl⟩

/-- Explicit result of one rename step on a readable file: the source entry
is removed, any file already at the target path is replaced, and the
content reappears under the new name in the same directory. -/
theorem renameStep_eq {H : Content → Name} {cc : Int} {dirpath filename : Name}
    {fs : FS} {buf : Content} (hl : fsLookup fs (dirpath, filename) = some buf) :
    renameStep H cc dirpath fs filename =
      Except.ok (fsErase (fsErase fs (dirpath, filename))
          (dirpath, new_filename H cc filename buf) ++
        [((dirpath, new_filename H cc filename buf), buf)]) := by
  simp [renameStep, hash_file, hl, osRename, new_filename]

/-- Every entry surviving one rename step has the directory and content of
an entry of the input file system. -/
theorem renameStep_frame {H : Content → Name} {cc : Int} {dirpath filename : Name}
    {fs fs2 : FS} (h : renameStep H cc dirpath fs filename = Except.ok fs2) :
    ∀ e ∈ fs2, ∃ e0, e0 ∈ fs ∧ e0.1.1 = e.1.1 ∧ e0.2 = e.2 := by
  intro e he
  obtain ⟨buf, hl⟩ := renameStep_ok_src h
  rw [renameStep_eq hl] at h
  simp only [Except.ok.injEq] at h
  subst h
  rcases List.mem_append.mp he with h1 | h2
  · exact ⟨e, mem_of_mem_fsErase (mem_of_mem_fsErase h1), rfl, rfl⟩
  · have he2 : e = ((dirpath, new_filename H cc filename buf), buf) := by simpa using h2
    subst he2
    exact ⟨((dirpath, filename), buf), fsLookup_mem hl, rfl, rfl⟩

/-- Frame property of the per-directory loop. -/
theorem renameDir_frame {H : Content → Name} {cc : Int} {dirpath : Name} :
    ∀ (filenames : List Name) {fs fs2 : FS},
      renameDir H cc dirpath fs filenames = Except.ok fs2 →
      ∀ e ∈ fs2, ∃ e0, e0 ∈ fs ∧ e0.1.1 = e.1.1 ∧ e0.2 = e.2 := by
  intro filenames
  induction filenames with
  | nil =>
    intro fs fs2 h e he
    simp only [renameDir, Except.ok.injEq] at h
    subst h
    exact ⟨e, he, rfl, rfl⟩
  | cons fn rest ih =>
    intro fs fs2 h e he
    cases hs : renameStep H cc dirpath fs fn with
    | error e2 => simp [renameDir, hs] at h
    | ok fsMid =>
      simp only [renameDir, hs] at h
      obtain ⟨e1, he1, hd1, hc1⟩ := ih h e he
      obtain ⟨e0, he0, hd0, hc0⟩ := renameStep_frame hs e1 he1
      exact ⟨e0, he0, hd0.trans hd1, hc0.trans hc1⟩

/-- Frame property of the whole walk. -/
theorem rename_files_frame {H : Content → Name} {cc : Int} :
    ∀ (walk : List (Name × List Name)) {fs fs2 : FS},
      rename_files H cc fs walk = Except.ok fs2 →
      ∀ e ∈ fs2, ∃ e0, e0 ∈ fs ∧ e0.1.1 = e.1.1 ∧ e0.2 = e.2 := by
  intro walk
  induction walk with
  | nil =>
    intro fs fs2 h e he
    simp only [rename_files, Except.ok.injEq] at h
    subst h
    exact ⟨e, he, rfl, rfl⟩
  | cons d rest ih =>
    intro fs fs2 h e he
    cases hs : renameDir H cc d.1 fs d.2 with
    | error e2 => simp [rename_files, hs] at h
    | ok fsMid =>
      simp only [rename_files, hs] at h
      obtain ⟨e1, he1, hd1, hc1⟩ := ih h e he
      obtain ⟨e0, he0, hd0, hc0⟩ := renameDir_frame d.2 hs e1 he1
      exact ⟨e0, he0, hd0.trans hd1, hc0.trans hc1⟩

/-- C6: `rename_files` never modifies any file's byte content and never
moves a file across directories — every entry of the resulting file system
has the byte content and the directory of an entry of the initial file
system (only the filename component may differ). -/
theorem rename_preserves_content_and_dir (H : Content → Name) (char_count : Int)
    (fs0 fs1 : FS) (walk : List (Name × List Name))
    (hrun : rename_files H char_count fs0 walk = Except.ok fs1) :
    ∀ e ∈ fs1, (fs0.any (fun e0 => e0.1.1 == e.1.1 && e0.2 == e.2)) = true := by
  intro e he
  obtain ⟨e0, he0, hd, hc⟩ := rename_files_frame walk hrun e he
  apply List.any_eq_true.mpr
  exact ⟨e0, he0, by simp [hd, hc]⟩

/-- Witness for C6: a concrete one-directory run; the renamed file keeps
its content and directory. -/
theorem rename_preserves_content_and_dir_witness :
    rename_files demoHash64 2 [((("d").toList, ("a.txt").toList), [1])]
      [(("d").toList, [("a.txt").toList])] =
      Except.ok [((("d").toList, ("01.txt").toList), [1])] ∧
    (([((("d").toList, ("a.txt").toList), ([1] : Content))] : FS).any
      (fun e0 => e0.1.1 == ((("d").toList, ("01.txt").toList), ([1] : Content)).1.1 &&
        e0.2 == ((("d").toList, ("01.txt").toList), ([1] : Content)).2)) = true := by
  refine ⟨rfl, ?_⟩
  exact rename_preserves_content_and_dir demoHash64 2
    [((("d").toList, ("a.txt").toList), [1])] [((("d").toList, ("01.txt").toList), [1])]
    [(("d").toList, [("a.txt").toList])] rfl
    ((("d").toList, ("01.txt").toList), [1]) (by decide)

/-- C3 (amended): for every nonnegative requested length, the renamer's
`hash_file` is the pure truncation `List.take` of the digest of the whole
content — so it is an initial segment of the full digest — and its length is
the requested length clamped to the 64 digest characters, hence exactly the
requested length whenever the request does not exceed 64. -/
theorem truncated_digest_is_initial_segment (H : Content → Name) (fs : FS)
    (filepath : FPath) (buf : Content) (n : Int)
    (hread : fsLookup fs filepath = some buf) (hn : 0 ≤ n) :
    hash_file H fs filepath n = Except.ok ((H buf).take n.toNat) ∧
    (H buf).take n.toNat ++ (H buf).drop n.toNat = H buf ∧
    ((H buf).length = 64 → ((H buf).take n.toNat).length = min n.toNat 64) ∧
    ((H buf).length = 64 → n ≤ 64 → ((H buf).take n.toNat).length = n.toNat) := by
  refine ⟨?_, List.take_append_drop _ _, ?_, ?_⟩
  · simp [hash_file, hread, pySlice, hn]
  · intro h64
    simp [List.length_take, h64]
  · intro h64 hle
    simp only [List.length_take, h64]
    omega

/-- Witness for C3 at a concrete file and requested length 8. -/
theorem truncated_digest_is_initial_segment_witness :
    fsLookup [((("d").toList, ("a").toList), [1])] (("d").toList, ("a").toList) = some [1] ∧
    (0 : Int) ≤ 8 ∧
    hash_file demoHash64 [((("d").toList, ("a").toList), [1])] (("d").toList, ("a").toList) 8 =
      Except.ok ((demoHash64 [1]).take (8 : Int).toNat) ∧
    ((demoHash64 [1]).take (8 : Int).toNat).length = (8 : Int).toNat := by
  refine ⟨rfl, by decide, ?_, ?_⟩
  · exact (truncated_digest_is_initial_segment demoHash64
      [((("d").toList, ("a").toList), [1])] (("d").toList, ("a").toList) [1] 8 rfl
      (by decide)).1
  · exact (truncated_digest_is_initial_segment demoHash64
      [((("d").toList, ("a").toList), [1])] (("d").toList, ("a").toList) [1] 8 rfl
      (by decide)).2.2.2 (by decide) (by decide)

/-- C3 counterexample: for requested length 65 the truncated digest is the
whole 64-character digest, so it is not a prefix "of the requested length"
as the claim states for every requested length. -/
theorem truncated_digest_length_counterexample :
    hash_file demoHash64 [((("d").toList, ("a").toList), [1])] (("d").toList, ("a").toList) 65 =
      Except.ok hex64 ∧
    hex64.length = 64 ∧ ((hex64.length == 65) = false) :=
  ⟨rfl, by decide, by decide⟩

/-- C10: for a readable file and nonnegative `char_count` n, the renamer's
`hash_file` returns the digest slice whose length is exactly `min n 64`;
a request beyond 64 silently clamps to the full digest, and n = 0 yields the
empty digest so that the constructed filename is just the extension. -/
theorem hash_file_length_clamp (H : Content → Name) (fs : FS) (dirpath filename : Name)
    (buf : Content) (n : Int)
    (hread : fsLookup fs (dirpath, filename) = some buf)
    (hlen : (H buf).length = 64) (hn : 0 ≤ n) :
    hash_file H fs (dirpath, filename) n = Except.ok (pySlice (H buf) n) ∧
    (pySlice (H buf) n).length = min n.toNat 64 ∧
    ((64 : Int) ≤ n → pySlice (H buf) n = H buf) ∧
    (n = 0 → pySlice (H buf) n = [] ∧
      new_filename H n filename buf = (splitext filename).2) := by
  refine ⟨by simp [hash_file, hread], ?_, ?_, ?_⟩
  · rw [pySlice_nonneg hn]
    simp [List.length_take, hlen]
  · intro h64
    rw [pySlice_nonneg hn]
    exact List.take_of_length_le (by omega)
  · intro h0
    subst h0
    refine ⟨by simp [pySlice], ?_⟩
    simp [new_filename, pySlice]

/-- Witness for C10 at requested lengths 100 (clamped) and 0 (empty). -/
theorem hash_file_length_clamp_witness :
    fsLookup [((("d").toList, ("a.txt").toList), [1])] (("d").toList, ("a.txt").toList) =
      some [1] ∧
    (demoHash64 [1]).length = 64 ∧
    (pySlice (demoHash64 [1]) 100).length = min (100 : Int).toNat 64 ∧
    new_filename demoHash64 0 ("a.txt").toList [1] = (splitext ("a.txt").toList).2 := by
  refine ⟨rfl, by decide, ?_, ?_⟩
  · exact (hash_file_length_clamp demoHash64 [((("d").toList, ("a.txt").toList), [1])]
      ("d").toList ("a.txt").toList [1] 100 rfl (by decide) (by decide)).2.1
  · exact ((hash_file_length_clamp demoHash64 [((("d").toList, ("a.txt").toList), [1])]
      ("d").toList ("a.txt").toList [1] 0 rfl (by decide) (by decide)).2.2.2 rfl).2

/-- C4 counterexample: out-of-bounds prefix lengths (0, 65, negative) are
accepted by the argument parsing, not reported as invalid arguments, and
traversal proceeds and renames with such a value. -/
theorem char_count_bounds_counterexample :
    parse_char_count (some 0) = Except.ok 0 ∧
    parse_char_count (some 65) = Except.ok 65 ∧
    parse_char_count (some (-3)) = Except.ok (-3) ∧
    renameDir demoHash64 65 ("d").toList [((("d").toList, ("a.txt").toList), [1])]
      [("a.txt").toList] =
      Except.ok [((("d").toList, hex64 ++ (".txt").toList), [1])] :=
  ⟨rfl, rfl, rfl, rfl⟩

/-- C4 (amended): the prefix-length argument defaults to 10, but no bounds
are enforced: every integer value is accepted as given, and no
invalid-argument report happens. -/
theorem char_count_default_no_bounds :
    parse_char_count none = Except.ok 10 ∧
    ∀ n : Int, parse_char_count (some n) = Except.ok n :=
  ⟨rfl, fun _ => rfl⟩

end RandomRename

namespace RandomRename

/-- C5 (amended): for every readable file, `rename_files` computes the new
path as the same directory joined with the truncated digest followed by the
`splitext` extension of the original filename, and renames onto it.  That
extension agrees with "the filename's last dot-delimited suffix" whenever
some character before the last dot is not a dot; for dotless names and names
whose characters before the last dot are all dots (leading-dot hidden names
such as `.bashrc`) the extension is empty. -/
theorem rename_target_path_and_extension (H : Content → Name) (char_count : Int)
    (dirpath : Name) (fs : FS) (filename : Name) (buf : Content)
    (hread : fsLookup fs (dirpath, filename) = some buf) :
    renameStep H char_count dirpath fs filename =
      osRename fs (dirpath, filename) (dirpath, new_filename H char_count filename buf) ∧
    renameStep H char_count dirpath fs filename =
      Except.ok (fsErase (fsErase fs (dirpath, filename))
          (dirpath, new_filename H char_count filename buf) ++
        [((dirpath, new_filename H char_count filename buf), buf)]) ∧
    ((∃ i, rfindDot filename = some i ∧
        ((filename.take i).any (fun c => c != '.')) = true) →
      (splitext filename).2 = specExt filename) ∧
    ((splitext filename).2 = specExt filename ∨ (splitext filename).2 = []) := by
  refine ⟨?_, renameStep_eq hread, ?_, ?_⟩
  · simp [renameStep, hash_file, hread, new_filename]
  · rintro ⟨i, hi, hany⟩
    simp [splitext, specExt, hi, hany]
  · cases hi : rfindDot filename with
    | none => left; simp [splitext, specExt, hi]
    | some i =>
      by_cases hany : ((filename.take i).any (fun c => c != '.')) = true
      · left; simp [splitext, specExt, hi, hany]
      · right; simp [splitext, hi, hany]

/-- Witness for C5: the file `report.final.txt` keeps exactly its last
suffix `.txt`, and the rename target is the hash prefix plus `.txt` in the
same directory. -/
theorem rename_target_path_and_extension_witness :
    fsLookup [((("d").toList, ("report.final.txt").toList), [1])]
      (("d").toList, ("report.final.txt").toList) = some [1] ∧
    renameStep demoHash64 8 ("d").toList
      [((("d").toList, ("report.final.txt").toList), [1])] ("report.final.txt").toList =
      osRename [((("d").toList, ("report.final.txt").toList), [1])]
        (("d").toList, ("report.final.txt").toList)
        (("d").toList, new_filename demoHash64 8 ("report.final.txt").toList [1]) ∧
    (splitext ("report.final.txt").toList).2 = specExt ("report.final.txt").toList ∧
    new_filename demoHash64 8 ("report.final.txt").toList [1] = ("01234567.txt").toList := by
  refine ⟨rfl, ?_, ?_, by decide⟩
  · exact (rename_target_path_and_extension demoHash64 8 ("d").toList
      [((("d").toList, ("report.final.txt").toList), [1])] ("report.final.txt").toList [1]
      rfl).1
  · exact (rename_target_path_and_extension demoHash64 8 ("d").toList
      [((("d").toList, ("report.final.txt").toList), [1])] ("report.final.txt").toList [1]
      rfl).2.2.1 ⟨12, by decide, by decide⟩

/-- C5 counterexample: for the leading-dot hidden name `.bashrc` the code's
extension is empty, not the last dot-delimited suffix `.bashrc` the claim
describes: the file is renamed to the bare three-character digest prefix,
which differs from prefix-plus-suffix. -/
theorem rename_extension_counterexample :
    (splitext (".bashrc").toList).2 = [] ∧
    specExt (".bashrc").toList = (".bashrc").toList ∧
    ((splitext (".bashrc").toList).2 == specExt (".bashrc").toList) = false ∧
    renameDir demoHash64 3 ("d").toList [((("d").toList, (".bashrc").toList), [1])]
      [(".bashrc").toList] =
      Except.ok [((("d").toList, ("012").toList), [1])] ∧
    ((("012").toList == ("012").toList ++ specExt (".bashrc").toList) = false) :=
  ⟨by decide, by decide, by decide, rfl, by decide⟩

/-- C8: with prefix length 4, two distinct files of the same directory whose
digests share their first four characters and whose extensions agree are
both assigned the identical target path; the second rename silently
overwrites the first, so the run ends with a single file holding the second
content and the first content is gone. -/
theorem hash_collision_overwrite :
    new_filename collideHash 4 ("a.txt").toList [1] =
      new_filename collideHash 4 ("b.txt").toList [2] ∧
    renameDir collideHash 4 ("d").toList
      [((("d").toList, ("a.txt").toList), [1]), ((("d").toList, ("b.txt").toList), [2])]
      [("a.txt").toList, ("b.txt").toList] =
      Except.ok [((("d").toList, ("aaaa.txt").toList), [2])] ∧
    (([((("d").toList, ("aaaa.txt").toList), ([2] : Content))] : FS).all
      (fun e => e.2 != ([1] : Content))) = true :=
  ⟨by decide, rfl, by decide⟩

end RandomRename

namespace CheckDuplicates

/-- A successful run over a concatenation passes through an intermediate
state after the first half. -/
theorem scanFiles_ok_split {H : Content → String} {xs ys : List FileEntry}
    {st stF : ScanState} (h : scanFiles H st (xs ++ ys) = Except.ok stF) :
    ∃ stM, scanFiles H st xs = Except.ok stM ∧ scanFiles H stM ys = Except.ok stF := by
  cases hx : scanFiles H st xs with
  | error e =>
    rw [scanFiles_append xs ys st, hx] at h
    simp at h
  | ok stM =>
    rw [scanFiles_append xs ys st, hx] at h
    exact ⟨stM, rfl, h⟩

/-- Origin of the scan state: every index entry maps the digest of some
readable walked file to that file's path, and the duplicate records grown by
a run segment each pair a file of the segment with an already-indexed file
of digest equal to its own. -/
theorem scanFiles_delta (H : Content → String) (S : List FileEntry) :
    ∀ (fs : List FileEntry) (st st' : ScanState),
      (∀ f ∈ fs, f ∈ S) →
      (∀ d q, (d, q) ∈ st.file_hashes →
        ∃ g cg, g ∈ S ∧ g.path = q ∧ g.content = some cg ∧ H cg = d) →
      scanFiles H st fs = Except.ok st' →
      (∀ d q, (d, q) ∈ st'.file_hashes →
        ∃ g cg, g ∈ S ∧ g.path = q ∧ g.content = some cg ∧ H cg = d) ∧
      ∃ Δ, st'.duplicates = st.duplicates ++ Δ ∧
        ∀ pq ∈ Δ, ∃ f cf g cg, f ∈ fs ∧ g ∈ S ∧ pq.1 = f.path ∧ pq.2 = g.path ∧
          f.content = some cf ∧ g.content = some cg ∧ H cf = H cg := by
  intro fs
  induction fs with
  | nil =>
    intro st st' _ hidx h
    simp only [scanFiles, Except.ok.injEq] at h
    subst h
    exact ⟨hidx, [], by simp, by simp⟩
  | cons f rest ih =>
    intro st st' hsub hidx h
    cases hc : f.content with
    | none => simp [scanFiles, scanStep, hash_file, hc] at h
    | some c =>
      cases hq : lookup st.file_hashes (H c) with
      | some orig =>
        rw [show scanFiles H st (f :: rest) =
            scanFiles H ⟨st.file_hashes, st.duplicates ++ [(f.path, orig)]⟩ rest from by
          simp [scanFiles, scanStep_dup hc hq]] at h
        obtain ⟨hidx2, Δ, hdup, hΔ⟩ :=
          ih ⟨st.file_hashes, st.duplicates ++ [(f.path, orig)]⟩ st'
            (fun g hg => hsub g (List.mem_cons_of_mem _ hg)) hidx h
        refine ⟨hidx2, (f.path, orig) :: Δ, ?_, ?_⟩
        · rw [hdup]
          simp
        · intro pq hpq
          rcases List.mem_cons.mp hpq with rfl | hpq2
          · obtain ⟨g, cg, hgS, hgp, hgc, hgd⟩ := hidx (H c) orig (lookup_mem hq)
            exact ⟨f, c, g, cg, List.mem_cons_self _ _, hgS, rfl, hgp.symm, hc, hgc, hgd.symm⟩
          · obtain ⟨f2, cf, g, cg, hf2, hgS, h1, h2, h3, h4, h5⟩ := hΔ pq hpq2
            exact ⟨f2, cf, g, cg, List.mem_cons_of_mem _ hf2, hgS, h1, h2, h3, h4, h5⟩
      | none =>
        rw [show scanFiles H st (f :: rest) =
            scanFiles H ⟨st.file_hashes ++ [(H c, f.path)], st.duplicates⟩ rest from by
          simp [scanFiles, scanStep_new hc hq]] at h
        have hidx2 : ∀ d q, (d, q) ∈ st.file_hashes ++ [(H c, f.path)] →
            ∃ g cg, g ∈ S ∧ g.path = q ∧ g.content = some cg ∧ H cg = d := by
          intro d q hm
          rcases List.mem_append.mp hm with hm1 | hm2
          · exact hidx d q hm1
          · have hdq : (d, q) = (H c, f.path) := by simpa using hm2
            injection hdq with hd hq2
            exact ⟨f, c, hsub f (List.mem_cons_self _ _), hq2.symm, hc, hd.symm⟩
        obtain ⟨hidx3, Δ, hdup, hΔ⟩ :=
          ih ⟨st.file_hashes ++ [(H c, f.path)], st.duplicates⟩ st'
            (fun g hg => hsub g (List.mem_cons_of_mem _ hg)) hidx2 h
        refine ⟨hidx3, Δ, hdup, ?_⟩
        intro pq hpq
        obtain ⟨f2, cf, g, cg, hf2, hgS, h1, h2, h3, h4, h5⟩ := hΔ pq hpq
        exact ⟨f2, cf, g, cg, List.mem_cons_of_mem _ hf2, hgS, h1, h2, h3, h4, h5⟩

/-- A digest not borne by any file of the origin set is absent from an index
whose entries all come from that set. -/
theorem lookup_eq_none_of_fresh {H : Content → String} {S : List FileEntry}
    {m : List (String × String)} {dd : String}
    (hidx : ∀ d q, (d, q) ∈ m →
      ∃ g cg, g ∈ S ∧ g.path = q ∧ g.content = some cg ∧ H cg = d)
    (hfresh : ∀ g ∈ S, ∀ cg, g.content = some cg → H cg ≠ dd) :
    lookup m dd = none := by
  cases hl : lookup m dd with
  | none => rfl
  | some p =>
    obtain ⟨g, cg, hgS, _, hgc, hgd⟩ := hidx dd p (lookup_mem hl)
    exact absurd hgd (hfresh g hgS cg hgc)

/-- Records whose first component lies in a path set avoiding both paths of
a pair never count as pairing that pair. -/
theorem countP_pair_zero {A B : String} {Δ : List (String × String)} {paths : List String}
    (horig : ∀ pq ∈ Δ, pq.1 ∈ paths) (hA : A ∉ paths) (hB : B ∉ paths) :
    Δ.countP (fun r => (r.1 == A && r.2 == B) || (r.1 == B && r.2 == A)) = 0 := by
  apply List.countP_eq_zero.mpr
  intro r hr
  have h1 : r.1 ≠ A := fun h => hA (h ▸ horig r hr)
  have h2 : r.1 ≠ B := fun h => hB (h ▸ horig r hr)
  simp only [Bool.or_eq_true, Bool.and_eq_true, beq_iff_eq, not_or]
  exact ⟨fun h => h1 h.1, fun h => h2 h.1⟩

/-- Among the walked files, a path that is distinct from the paths of all
files other than `a` identifies `a`. -/
theorem entry_eq_of_path_eq {u v w : List FileEntry} {a b f : FileEntry}
    (hab : a.path ≠ b.path)
    (hau : a.path ∉ u.map FileEntry.path) (hav : a.path ∉ v.map FileEntry.path)
    (haw : a.path ∉ w.map FileEntry.path)
    (hf : f ∈ u ++ a :: v ++ b :: w) (hfp : f.path = a.path) : f = a := by
  rcases List.mem_append.mp hf with hf1 | hf4
  · rcases List.mem_append.mp hf1 with hfu | hf2
    · exact absurd (hfp ▸ List.mem_map_of_mem FileEntry.path hfu) hau
    · rcases List.mem_cons.mp hf2 with rfl | hfv
      · rfl
      · exact absurd (hfp ▸ List.mem_map_of_mem FileEntry.path hfv) hav
  · rcases List.mem_cons.mp hf4 with rfl | hfw
    · exact absurd hfp.symm hab
    · exact absurd (hfp ▸ List.mem_map_of_mem FileEntry.path hfw) haw

/-- Among the walked files, a path that is distinct from the paths of all
files other than `b` identifies `b`. -/
theorem entry_eq_of_path_eq_b {u v w : List FileEntry} {a b f : FileEntry}
    (hab : a.path ≠ b.path)
    (hbu : b.path ∉ u.map FileEntry.path) (hbv : b.path ∉ v.map FileEntry.path)
    (hbw : b.path ∉ w.map FileEntry.path)
    (hf : f ∈ u ++ a :: v ++ b :: w) (hfp : f.path = b.path) : f = b := by
  rcases List.mem_append.mp hf with hf1 | hf4
  · rcases List.mem_append.mp hf1 with hfu | hf2
    · exact absurd (hfp ▸ List.mem_map_of_mem FileEntry.path hfu) hbu
    · rcases List.mem_cons.mp hf2 with rfl | hfv
      · exact absurd hfp hab
      · exact absurd (hfp ▸ List.mem_map_of_mem FileEntry.path hfv) hbv
  · rcases List.mem_cons.mp hf4 with rfl | hfw
    · rfl
    · exact absurd (hfp ▸ List.mem_map_of_mem FileEntry.path hfw) hbw

end CheckDuplicates

namespace CheckDuplicates

/-- C2 (amended): in a successful scan whose walk visits `a` before `b`,
with all file paths distinct and the digest function collision-free on the
scanned files: if `a` and `b` have identical byte content and `a` is the
earliest-visited file of that digest, then exactly one DuplicateRecord pairs
them, namely `(b, a)` — attributing the earlier-visited `a` as the original
(a pair of two later duplicates of the same content is NOT paired directly:
each is paired with the first-seen original only); and if `a` and `b` have
distinct byte content, no DuplicateRecord pairs them. -/
theorem duplicate_pairing_amended (H : Content → String)
    (u v w : List FileEntry) (a b : FileEntry) (ca cb : Content)
    (dups : List (String × String))
    (hrun : find_duplicates H (u ++ a :: v ++ b :: w) = Except.ok dups)
    (ha : a.content = some ca) (hb : b.content = some cb)
    (hab : a.path ≠ b.path)
    (hanin : a.path ∉ (u ++ v ++ w).map FileEntry.path)
    (hbnin : b.path ∉ (u ++ v ++ w).map FileEntry.path)
    (hcf : ∀ f ∈ u ++ a :: v ++ b :: w, ∀ g ∈ u ++ a :: v ++ b :: w,
      ∀ cf cg, f.content = some cf → g.content = some cg → H cf = H cg → cf = cg) :
    ((ca = cb ∧ ∀ g ∈ u, ∀ cg, g.content = some cg → H cg ≠ H ca) →
      dups.countP (fun r => (r.1 == a.path && r.2 == b.path) ||
        (r.1 == b.path && r.2 == a.path)) = 1 ∧
      (b.path, a.path) ∈ dups) ∧
    (ca ≠ cb →
      dups.countP (fun r => (r.1 == a.path && r.2 == b.path) ||
        (r.1 == b.path && r.2 == a.path)) = 0) := by
  cases hsc : scanFiles H ⟨[], []⟩ (u ++ a :: v ++ b :: w) with
  | error e =>
    rw [find_duplicates, hsc] at hrun
    cases hrun
  | ok stF =>
    have hdups : dups = stF.duplicates := by
      rw [find_duplicates, hsc] at hrun
      exact (Except.ok.injEq _ _ ▸ hrun).symm
    simp only [List.map_append, List.mem_append, not_or] at hanin hbnin
    obtain ⟨⟨hau, hav⟩, haw⟩ := hanin
    obtain ⟨⟨hbu, hbv⟩, hbw⟩ := hbnin
    have haF : a ∈ u ++ a :: v ++ b :: w :=
      List.mem_append_left _ (List.mem_append_right _ (List.mem_cons_self _ _))
    have hbF : b ∈ u ++ a :: v ++ b :: w :=
      List.mem_append_right _ (List.mem_cons_self _ _)
    refine ⟨?_, ?_⟩
    · rintro ⟨hceq, hfirst⟩
      have hb2 : b.content = some ca := by rw [hceq]; exact hb
      obtain ⟨stV, hleft, hright⟩ := scanFiles_ok_split hsc
      obtain ⟨stU, hu, havr⟩ := scanFiles_ok_split hleft
      obtain ⟨hidxU, ΔU, hdupU, hΔU⟩ :=
        scanFiles_delta H u u ⟨[], []⟩ stU (fun f hf => hf)
          (fun d q hm => absurd hm (List.not_mem_nil _)) hu
      have hqU : lookup stU.file_hashes (H ca) = none :=
        lookup_eq_none_of_fresh hidxU hfirst
      rw [show scanFiles H stU (a :: v) =
          scanFiles H ⟨stU.file_hashes ++ [(H ca, a.path)], stU.duplicates⟩ v from by
        simp [scanFiles, scanStep_new ha hqU]] at havr
      have hidxA : ∀ d q,
          (d, q) ∈ (⟨stU.file_hashes ++ [(H ca, a.path)], stU.duplicates⟩ :
            ScanState).file_hashes →
          ∃ g cg, g ∈ u ++ a :: v ++ b :: w ∧ g.path = q ∧ g.content = some cg ∧
            H cg = d := by
        intro d q hm
        rcases List.mem_append.mp hm with hm1 | hm2
        · obtain ⟨g, cg, hgS, h1, h2, h3⟩ := hidxU d q hm1
          exact ⟨g, cg, List.mem_append_left _ (List.mem_append_left _ hgS), h1, h2, h3⟩
        · have hdq : (d, q) = (H ca, a.path) := by simpa using hm2
          injection hdq with hd hq2
          exact ⟨a, ca, haF, hq2.symm, ha, hd.symm⟩
      obtain ⟨hidxV, ΔV, hdupV, hΔV⟩ :=
        scanFiles_delta H (u ++ a :: v ++ b :: w) v
          ⟨stU.file_hashes ++ [(H ca, a.path)], stU.duplicates⟩ stV
          (fun f hf =>
            List.mem_append_left _ (List.mem_append_right _ (List.mem_cons_of_mem _ hf)))
          hidxA havr
      have hqV : lookup stV.file_hashes (H ca) = some a.path :=
        scanFiles_preserves_lookup havr (lookup_append_self _ hqU)
      rw [show scanFiles H stV (b :: w) =
          scanFiles H ⟨stV.file_hashes, stV.duplicates ++ [(b.path, a.path)]⟩ w from by
        simp [scanFiles, scanStep_dup hb2 hqV]] at hright
      obtain ⟨hidxW, ΔW, hdupW, hΔW⟩ :=
        scanFiles_delta H (u ++ a :: v ++ b :: w) w
          ⟨stV.file_hashes, stV.duplicates ++ [(b.path, a.path)]⟩ stF
          (fun f hf => List.mem_append_right _ (List.mem_cons_of_mem _ hf))
          hidxV hright
      have hVdups : stV.duplicates = ΔU ++ ΔV := by
        rw [hdupV]
        show stU.duplicates ++ ΔV = ΔU ++ ΔV
        rw [hdupU]
        simp
      have hFdups : dups = ((ΔU ++ ΔV) ++ [(b.path, a.path)]) ++ ΔW := by
        rw [hdups, hdupW]
        show (stV.duplicates ++ [(b.path, a.path)]) ++ ΔW = _
        rw [hVdups]
      have horigU : ∀ pq ∈ ΔU, pq.1 ∈ u.map FileEntry.path := by
        intro pq hpq
        obtain ⟨f, cf, g, cg, hfu, _, h1, _, _, _, _⟩ := hΔU pq hpq
        exact h1.symm ▸ List.mem_map_of_mem FileEntry.path hfu
      have horigV : ∀ pq ∈ ΔV, pq.1 ∈ v.map FileEntry.path := by
        intro pq hpq
        obtain ⟨f, cf, g, cg, hfv, _, h1, _, _, _, _⟩ := hΔV pq hpq
        exact h1.symm ▸ List.mem_map_of_mem FileEntry.path hfv
      have horigW : ∀ pq ∈ ΔW, pq.1 ∈ w.map FileEntry.path := by
        intro pq hpq
        obtain ⟨f, cf, g, cg, hfw, _, h1, _, _, _, _⟩ := hΔW pq hpq
        exact h1.symm ▸ List.mem_map_of_mem FileEntry.path hfw
      have hcU : List.countP (fun r => (r.1 == a.path && r.2 == b.path) ||
          (r.1 == b.path && r.2 == a.path)) ΔU = 0 := countP_pair_zero horigU hau hbu
      have hcV : List.countP (fun r => (r.1 == a.path && r.2 == b.path) ||
          (r.1 == b.path && r.2 == a.path)) ΔV = 0 := countP_pair_zero horigV hav hbv
      have hcW : List.countP (fun r => (r.1 == a.path && r.2 == b.path) ||
          (r.1 == b.path && r.2 == a.path)) ΔW = 0 := countP_pair_zero horigW haw hbw
      have hone : List.countP (fun r => (r.1 == a.path && r.2 == b.path) ||
          (r.1 == b.path && r.2 == a.path)) [(b.path, a.path)] = 1 := by
        simp [List.countP_cons]
      constructor
      · rw [hFdups, List.countP_append, List.countP_append, List.countP_append,
          hcU, hcV, hcW, hone]
      · rw [hFdups]
        simp
    · intro hne
      obtain ⟨hidxF, Δ, hdupF, hΔF⟩ :=
        scanFiles_delta H (u ++ a :: v ++ b :: w) (u ++ a :: v ++ b :: w)
          ⟨[], []⟩ stF (fun f hf => hf)
          (fun d q hm => absurd hm (List.not_mem_nil _)) hsc
      have hdups2 : dups = Δ := by
        rw [hdups, hdupF]
        simp
      rw [hdups2]
      apply List.countP_eq_zero.mpr
      intro r hr
      obtain ⟨f, cf, g, cg, hfF, hgF, h1, h2, h3, h4, h5⟩ := hΔF r hr
      simp only [Bool.or_eq_true, Bool.and_eq_true, beq_iff_eq, not_or]
      constructor
      · rintro ⟨hx, hy⟩
        have hfa : f = a := entry_eq_of_path_eq hab hau hav haw hfF (h1.symm.trans hx)
        have hgb : g = b := entry_eq_of_path_eq_b hab hbu hbv hbw hgF (h2.symm.trans hy)
        have hcfa : cf = ca := by
          rw [hfa, ha] at h3
          exact (Option.some.inj h3).symm
        have hcgb : cg = cb := by
          rw [hgb, hb] at h4
          exact (Option.some.inj h4).symm
        exact hne (hcf a haF b hbF ca cb ha hb (by rw [← hcfa, ← hcgb]; exact h5))
      · rintro ⟨hx, hy⟩
        have hfb : f = b := entry_eq_of_path_eq_b hab hbu hbv hbw hfF (h1.symm.trans hx)
        have hga : g = a := entry_eq_of_path_eq hab hau hav haw hgF (h2.symm.trans hy)
        have hcfb : cf = cb := by
          rw [hfb, hb] at h3
          exact (Option.some.inj h3).symm
        have hcga : cg = ca := by
          rw [hga, ha] at h4
          exact (Option.some.inj h4).symm
        exact hne ((hcf b hbF a haF cb ca hb ha (by rw [← hcfb, ← hcga]; exact h5)).symm)

end CheckDuplicates

namespace CheckDuplicates

/-- C2 counterexample: with three identical nonempty files p1, p2, p3, the
scanner pairs p2 and p3 each with the first-seen p1 only — no
DuplicateRecord pairs p2 with p3, although they are nonempty files with
identical byte content, so "exactly one DuplicateRecord pairing them" fails
for that pair. -/
theorem duplicate_pairing_counterexample :
    find_duplicates demoHash [⟨"p1", some [7]⟩, ⟨"p2", some [7]⟩, ⟨"p3", some [7]⟩] =
      Except.ok [("p2", "p1"), ("p3", "p1")] ∧
    ([("p2", "p1"), ("p3", "p1")] : List (String × String)).countP
      (fun r => (r.1 == "p2" && r.2 == "p3") || (r.1 == "p3" && r.2 == "p2")) = 0 :=
  ⟨rfl, by decide⟩

/-- Witness for C2: two files with identical content, visited first and
second; exactly one record pairs them, attributing the first as original. -/
theorem duplicate_pairing_amended_witness :
    find_duplicates demoHash ([] ++ (⟨"a", some [1]⟩ : FileEntry) :: [] ++
      (⟨"b", some [1]⟩ : FileEntry) :: []) = Except.ok [("b", "a")] ∧
    ([("b", "a")] : List (String × String)).countP
      (fun r => (r.1 == "a" && r.2 == "b") || (r.1 == "b" && r.2 == "a")) = 1 ∧
    (("b", "a") : String × String) ∈ [(("b" : String), ("a" : String))] := by
  have hcfp : ∀ f ∈ ([] ++ (⟨"a", some [1]⟩ : FileEntry) :: [] ++
        (⟨"b", some [1]⟩ : FileEntry) :: []),
      ∀ g ∈ ([] ++ (⟨"a", some [1]⟩ : FileEntry) :: [] ++
        (⟨"b", some [1]⟩ : FileEntry) :: []),
      ∀ cf cg, f.content = some cf → g.content = some cg →
        demoHash cf = demoHash cg → cf = cg := by
    intro f hf g hg cf cg hfc hgc _
    have hf1 : cf = [1] := by
      rcases List.mem_append.mp hf with hfl | hfr
      · rcases List.mem_append.mp hfl with h0 | h1
        · exact absurd h0 (List.not_mem_nil _)
        · rcases List.mem_cons.mp h1 with rfl | h2
          · exact (Option.some.inj hfc).symm
          · exact absurd h2 (List.not_mem_nil _)
      · rcases List.mem_cons.mp hfr with rfl | h2
        · exact (Option.some.inj hfc).symm
        · exact absurd h2 (List.not_mem_nil _)
    have hg1 : cg = [1] := by
      rcases List.mem_append.mp hg with hgl | hgr
      · rcases List.mem_append.mp hgl with h0 | h1
        · exact absurd h0 (List.not_mem_nil _)
        · rcases List.mem_cons.mp h1 with rfl | h2
          · exact (Option.some.inj hgc).symm
          · exact absurd h2 (List.not_mem_nil _)
      · rcases List.mem_cons.mp hgr with rfl | h2
        · exact (Option.some.inj hgc).symm
        · exact absurd h2 (List.not_mem_nil _)
    rw [hf1, hg1]
  have hmain := (duplicate_pairing_amended demoHash [] [] [] ⟨"a", some [1]⟩
    ⟨"b", some [1]⟩ [1] [1] [("b", "a")] rfl rfl rfl (by decide) (by simp) (by simp)
    hcfp).1 ⟨rfl, fun g hg => absurd hg (List.not_mem_nil _)⟩
  exact ⟨rfl, hmain.1, hmain.2⟩

end CheckDuplicates
